import Mathlib

/-!
Shallow embedding of `gh-pr-comments` (src/main.rs), a CLI that resolves a
user-supplied pull-request reference (URL, slash path, or bare number, plus an
optional `owner/repo` hint and the ambient git remote) to an
(owner, repository, number) triple, then renders the PR's review comments as
markdown.

Modelling conventions:
* Rust `&str` values are modelled as `List Char` for the parsing core (with
  `String` wrappers at the data-model boundary).
* `Url::parse` (the `url` crate) is abstracted as an injected function
  `urlParse : String → Option ParsedUrl`; the claims only constrain what
  happens when it fails or when it succeeds with a given path.
* `Repository::open(".")` / `find_remote("origin")` (the ambient git state) is
  abstracted as an injected `Except String String`: either an error message or
  the URL of the `origin` remote.
* `u32::from_str` is modelled by `parseU32`: an optional leading `+`, then one
  or more ASCII digits, value `< 2^32` (Rust rejects overflow).
* The regex `\d` class is modelled as ASCII digits (`Char.isDigit`).
* Each `println!` contributes its text plus a newline to the output string.
-/

/-- Result of the resolver: the Rust struct `RepoInfo { owner, name }`. -/
structure RepoInfo where
  owner : String
  name : String
deriving DecidableEq, Repr

/-- The Rust struct `PullRequest` deserialized from the GitHub API. -/
structure PullRequest where
  title : String
  html_url : String
deriving DecidableEq, Repr

/-- The Rust struct `Comment` deserialized from the GitHub API
(`user` is flattened to the login string, as only `user.login` is used). -/
structure Comment where
  body : String
  user : String
  created_at : String
  html_url : String
  diff_hunk : String
  path : String
  line : Option Nat
deriving DecidableEq, Repr

/-- Abstraction of a parsed `url::Url`: the code only reads `url.path()`. -/
structure ParsedUrl where
  path : String
deriving DecidableEq, Repr

/-- The distinct failure kinds of the resolver. Each constructor corresponds to
one error construction site in `main.rs`:
* `invalidPullRequestUrl` — `"Invalid GitHub PR URL format"` in `parse_github_url`;
* `invalidNumber` — a propagated `ParseIntError` from `parse::<u32>()?`
  (both in `parse_github_url` and in the slash-path arm of `parse_input`);
* `missingPrNumber` — `"PR number not specified"`;
* `invalidRepoHint` — `"Invalid repo format. Expected 'owner/repo'"`;
* `gitError` — a propagated error from opening the repo / finding `origin`;
* `unsupportedRemoteHost` — `"Could not parse GitHub repo from git remote"`;
* `unrecognizedReferenceFormat` — `"Could not parse PR input"`. -/
inductive ParseError where
  | invalidPullRequestUrl
  | invalidNumber
  | missingPrNumber
  | invalidRepoHint
  | gitError (msg : String)
  | unsupportedRemoteHost (url : String)
  | unrecognizedReferenceFormat (input : String)
deriving DecidableEq, Repr

/-- Decidable equality for `Except`, so concrete resolver runs can be checked
by `decide`. -/
instance exceptDecEq {ε α : Type} [DecidableEq ε] [DecidableEq α] :
    DecidableEq (Except ε α) := fun a b =>
  match a, b with
  | .ok x, .ok y =>
    if h : x = y then .isTrue (by rw [h]) else .isFalse (by simp [h])
  | .error x, .error y =>
    if h : x = y then .isTrue (by rw [h]) else .isFalse (by simp [h])
  | .ok _, .error _ => .isFalse (by simp)
  | .error _, .ok _ => .isFalse (by simp)

/-- `true` iff the character list contains `'/'` (Rust `str::contains('/')`). -/
def hasSlash : List Char → Bool
  | [] => false
  | c :: r => (c = '/') || hasSlash r

/-- Numeric value of a list of ASCII digits, most significant first
(accumulator form, as `u32::from_str` accumulates). -/
def digitsVal (cs : List Char) : Nat :=
  cs.foldl (fun a c => a * 10 + (c.toNat - 48)) 0

/-- Strip the optional single leading `'+'` accepted by `u32::from_str`. -/
def stripPlus : List Char → List Char
  | [] => []
  | c :: r => if c = '+' then r else c :: r

/-- Model of Rust `str::parse::<u32>`: an optional leading `'+'`, then a
non-empty run of ASCII digits whose value fits in 32 bits; anything else
(including overflow) is a `ParseIntError`, modelled as `none`. -/
def parseU32 (cs : List Char) : Option Nat :=
  if stripPlus cs ≠ [] ∧ (stripPlus cs).all Char.isDigit then
    if digitsVal (stripPlus cs) < 2 ^ 32 then some (digitsVal (stripPlus cs))
    else none
  else none

/-- Model of Rust `str::split('/').collect::<Vec<_>>()`: split at every `'/'`,
keeping empty segments (`""` splits to `[""]`, `"/"` to `["", ""]`). -/
def splitSlash : List Char → List (List Char)
  | [] => [[]]
  | c :: r =>
    if c = '/' then [] :: splitSlash r
    else
      match splitSlash r with
      | [] => [[c]]
      | p :: ps => (c :: p) :: ps

/-- Consume an exact literal from the front of the input: `some` of the
remainder when `lit` is a prefix of `cs`, else `none`. Used to model the
literal pieces (`/`, `/pull/`) of the regexes. -/
def afterLit : List Char → List Char → Option (List Char)
  | [], cs => some cs
  | _ :: _, [] => none
  | l :: ls, c :: cs => if c = l then afterLit ls cs else none

/-- The match of the regex `^/([^/]+)/([^/]+)/pull/(\d+)` against a URL path
(`parse_github_url`): returns the three captures (owner, repo, digit run) when
the anchored pattern matches a prefix of the path. The regex is not anchored at
the end, so arbitrary trailing content after the digit run is accepted; greedy
`[^/]+` captures are maximal runs of non-`'/'` characters (no backtracking can
shorten them, since the character after each capture must be `'/'`). -/
def matchPullPath (cs : List Char) : Option (List Char × List Char × List Char) :=
  (afterLit "/".data cs).bind fun r1 =>
    if r1.takeWhile (· ≠ '/') = [] then none
    else (afterLit "/".data (r1.dropWhile (· ≠ '/'))).bind fun r2 =>
      if r2.takeWhile (· ≠ '/') = [] then none
      else (afterLit "/pull/".data (r2.dropWhile (· ≠ '/'))).bind fun r3 =>
        if r3.takeWhile Char.isDigit = [] then none
        else some (r1.takeWhile (· ≠ '/'), r2.takeWhile (· ≠ '/'),
          r3.takeWhile Char.isDigit)

/-- Rust `parse_github_url`: match the URL path against
`^/([^/]+)/([^/]+)/pull/(\d+)`; on a match, `parse::<u32>` the digit capture
(propagating `ParseIntError` on overflow); otherwise fail with
`"Invalid GitHub PR URL format"`. -/
def parse_github_url (url : ParsedUrl) : Except ParseError (RepoInfo × Nat) :=
  match matchPullPath url.path.data with
  | some (owner, repo, ds) =>
    match parseU32 ds with
    | some n => .ok (⟨String.mk owner, String.mk repo⟩, n)
    | none => .error .invalidNumber
  | none => .error .invalidPullRequestUrl

/-- Rust `parse_repo_string`: split the hint on `'/'`; exactly two segments
give `RepoInfo`, anything else is `"Invalid repo format"`. -/
def parse_repo_string (repo : String) : Except ParseError RepoInfo :=
  match splitSlash repo.data with
  | [p0, p1] => .ok ⟨String.mk p0, String.mk p1⟩
  | _ => .error .invalidRepoHint

/-- Strip an optional trailing `".git"`: the behaviour of the lazy capture
`([^/]+?)` followed by `(?:\.git)?$` on a non-empty slash-free tail. The lazy
capture takes the shortest non-empty prefix whose remainder is `""` or
`".git"`, i.e. it strips one trailing `".git"` unless that would leave the
capture empty (so `".git"` itself is returned whole). -/
def stripGit (cs : List Char) : List Char :=
  if ".git".data.isSuffixOf cs ∧ 4 < cs.length then cs.take (cs.length - 4)
  else cs

/-- Matching of `[:/]([^/]+)/([^/]+?)(?:\.git)?$` against the characters that
follow an occurrence of the literal `github.com`: a `':'` or `'/'` separator, a
non-empty slash-free owner, `'/'`, then a non-empty slash-free tail (the end
anchor plus the slash-free captures force the tail to contain no further `'/'`),
with one trailing `".git"` stripped lazily. -/
def matchAfterHost (cs : List Char) : Option (List Char × List Char) :=
  match cs with
  | [] => none
  | sep :: rest =>
    if sep = ':' ∨ sep = '/' then
      if rest.takeWhile (· ≠ '/') = [] then none
      else (afterLit "/".data (rest.dropWhile (· ≠ '/'))).bind fun tail2 =>
        if tail2 = [] then none
        else if hasSlash tail2 then none
        else some (rest.takeWhile (· ≠ '/'), stripGit tail2)
    else none

/-- Leftmost-first search of the regex
`github\.com[:/]([^/]+)/([^/]+?)(?:\.git)?$` over the remote URL: try each
occurrence of the literal `github.com` from the left; the first occurrence at
which the rest of the pattern matches through to the end of the string wins. -/
def scanGithub : List Char → Option (List Char × List Char)
  | [] => none
  | c :: rest =>
    if "github.com".data.isPrefixOf (c :: rest) then
      match matchAfterHost ((c :: rest).drop 10) with
      | some r => some r
      | none => scanGithub rest
    else scanGithub rest

/-- Rust `detect_repo_from_git`, with the git state injected: `ambient` is
either the error from `Repository::open` / `find_remote("origin")` /
`remote.url()` or the `origin` remote URL. On a URL, apply the
`github.com[:/]owner/repo(.git)?$` matcher; no match is
`"Could not parse GitHub repo from git remote"`. -/
def detect_repo_from_git (ambient : Except String String) :
    Except ParseError RepoInfo :=
  match ambient with
  | .error e => .error (.gitError e)
  | .ok url =>
    match scanGithub url.data with
    | some (owner, name) => .ok ⟨String.mk owner, String.mk name⟩
    | none => .error (.unsupportedRemoteHost url)

/-- The slash-path attempt inside `parse_input` (lines 147–161): entered when
the token contains `'/'`; `some r` models an early `return r`, `none` models
falling through to the bare-number attempt. Exactly 2 segments return
`"PR number not specified"`; exactly 4 segments with third segment `pull`
return the parsed reference or a propagated `ParseIntError`; every other
segment count falls through (the Rust `parts.len() >= 2` guard is always true
when the token contains `'/'`, and its false branch also falls through). -/
def slash_attempt (cs : List Char) : Option (Except ParseError (RepoInfo × Nat)) :=
  if hasSlash cs then
    match splitSlash cs with
    | [_, _] => some (.error .missingPrNumber)
    | [p0, p1, p2, p3] =>
      if p2 = "pull".data then
        some (match parseU32 p3 with
          | some n => .ok (⟨String.mk p0, String.mk p1⟩, n)
          | none => .error .invalidNumber)
      else none
    | _ => none
  else none

/-- Rust `parse_input`: the ordered attempts of the resolver.
1. If `Url::parse` succeeds, return `parse_github_url` of the result.
2. Otherwise, if the token contains `'/'`, run the slash-path attempt; its
   `some` results return immediately.
3. Otherwise, if the token parses as `u32`, combine with the repo hint
   (`parse_repo_string`) when present, else with the ambient git remote
   (`detect_repo_from_git`).
4. Otherwise fail with `"Could not parse PR input"`. -/
def parse_input (urlParse : String → Option ParsedUrl)
    (ambient : Except String String) (pr_input : String)
    (repo_input : Option String) : Except ParseError (RepoInfo × Nat) :=
  match urlParse pr_input with
  | some url => parse_github_url url
  | none =>
    match slash_attempt pr_input.data with
    | some r => r
    | none =>
      match parseU32 pr_input.data with
      | some n =>
        match repo_input with
        | some repo => (parse_repo_string repo).map (fun ri => (ri, n))
        | none => (detect_repo_from_git ambient).map (fun ri => (ri, n))
      | none => .error (.unrecognizedReferenceFormat pr_input)

/-- The markdown block printed for one review comment by the loop in `main`
(lines 114–135): each `println!` contributes its text plus `"\n"`; the
`**Line:**` line is printed only when `comment.line` is present. -/
def render_comment (c : Comment) : String :=
  "### Comment by @" ++ c.user ++ "\n" ++
  "**File:** `" ++ c.path ++ "`\n" ++
  (match c.line with
    | some l => "**Line:** " ++ toString l ++ "\n"
    | none => "") ++
  "**Created:** " ++ c.created_at ++ "\n" ++
  "**URL:** " ++ c.html_url ++ "\n" ++
  "\n" ++
  "#### Diff Context\n" ++
  "```diff\n" ++
  c.diff_hunk ++ "\n" ++
  "```\n" ++
  "\n" ++
  "#### Comment\n" ++
  c.body ++ "\n" ++
  "\n" ++
  "---\n" ++
  "\n"

/-- The `for comment in filtered_comments` loop of `main`: renders each comment
in sequence, in list order. -/
def render_loop : List Comment → String
  | [] => ""
  | c :: cs => render_comment c ++ render_loop cs

/-- The header of the output: everything `main` prints before the comment loop
(the `# PR #.. - ..` line — note it shows the owner, as in the source — the
title/URL block, and the `## Comments` heading). -/
def render_header (repo_info : RepoInfo) (pr_number : Nat) (pr : PullRequest) :
    String :=
  "# PR #" ++ toString pr_number ++ " - " ++ repo_info.owner ++ "\n" ++
  "**Title:** " ++ pr.title ++ "\n" ++
  "**URL:** " ++ pr.html_url ++ "\n" ++
  "\n" ++
  "## Comments\n" ++
  "\n"

/-- The complete stdout of `main` after a successful resolution and both
fetches, as a function of the fetched data and the `--include-resolved` flag.
The `filtered_comments` computation is modelled verbatim from lines 104–110:
both branches of the `if` collect all comments. -/
def render_output (repo_info : RepoInfo) (pr_number : Nat) (pr : PullRequest)
    (comments : List Comment) (include_resolved : Bool) : String :=
  let filtered_comments := if include_resolved then comments else comments
  render_header repo_info pr_number pr ++ render_loop filtered_comments

/-! ### Basic lemmas about the character-level helpers -/

theorem hasSlash_iff_mem {l : List Char} : hasSlash l = true ↔ '/' ∈ l := by
  induction l with
  | nil => simp [hasSlash]
  | cons c r ih =>
    simp only [hasSlash, Bool.or_eq_true, decide_eq_true_eq, ih, List.mem_cons]
    constructor
    · rintro (h | h)
      · exact Or.inl h.symm
      · exact Or.inr h
    · rintro (h | h)
      · exact Or.inl h.symm
      · exact Or.inr h

theorem hasSlash_eq_false_iff {l : List Char} : hasSlash l = false ↔ '/' ∉ l := by
  rw [← hasSlash_iff_mem]
  cases h : hasSlash l <;> simp

theorem hasSlash_append {l r : List Char} :
    hasSlash (l ++ r) = (hasSlash l || hasSlash r) := by
  induction l with
  | nil => simp [hasSlash]
  | cons c t ih => simp [hasSlash, ih, Bool.or_assoc]

theorem hasSlash_takeWhile_ne_slash (l : List Char) :
    hasSlash (l.takeWhile (· ≠ '/')) = false := by
  rw [hasSlash_eq_false_iff]
  intro hm
  have := List.mem_takeWhile_imp hm
  simp at this

theorem hasSlash_take {l : List Char} (k : Nat) (h : hasSlash l = false) :
    hasSlash (l.take k) = false := by
  rw [hasSlash_eq_false_iff] at h ⊢
  intro hm
  exact h (List.mem_of_mem_take hm)

theorem takeWhile_all {p : Char → Bool} {l : List Char}
    (h : ∀ a ∈ l, p a = true) : l.takeWhile p = l := by
  induction l with
  | nil => rfl
  | cons c t ih =>
    rw [List.takeWhile_cons, if_pos (h c (List.mem_cons_self c t))]
    rw [ih fun a ha => h a (List.mem_cons_of_mem c ha)]

theorem takeWhile_append_all {p : Char → Bool} {l : List Char} (r : List Char)
    (h : ∀ a ∈ l, p a = true) : (l ++ r).takeWhile p = l ++ r.takeWhile p := by
  induction l with
  | nil => rfl
  | cons c t ih =>
    rw [List.cons_append, List.takeWhile_cons, if_pos (h c (List.mem_cons_self c t))]
    rw [ih fun a ha => h a (List.mem_cons_of_mem c ha), List.cons_append]

theorem dropWhile_append_all {p : Char → Bool} {l : List Char} (r : List Char)
    (h : ∀ a ∈ l, p a = true) : (l ++ r).dropWhile p = r.dropWhile p := by
  induction l with
  | nil => rfl
  | cons c t ih =>
    rw [List.cons_append, List.dropWhile_cons, if_pos (h c (List.mem_cons_self c t))]
    exact ih fun a ha => h a (List.mem_cons_of_mem c ha)

theorem mem_of_hasSlash_false {l : List Char} (h : hasSlash l = false) :
    ∀ a ∈ l, (a ≠ '/' : Bool) = true := by
  intro a ha
  rw [hasSlash_eq_false_iff] at h
  simp only [ne_eq, decide_eq_true_eq]
  intro hc
  exact h (hc ▸ ha)

theorem takeWhile_slash_append {l : List Char} (r : List Char)
    (h : hasSlash l = false) :
    (l ++ '/' :: r).takeWhile (· ≠ '/') = l := by
  rw [takeWhile_append_all _ (mem_of_hasSlash_false h)]
  simp [List.takeWhile_cons]

theorem dropWhile_slash_append {l : List Char} (r : List Char)
    (h : hasSlash l = false) :
    (l ++ '/' :: r).dropWhile (· ≠ '/') = '/' :: r := by
  rw [dropWhile_append_all _ (mem_of_hasSlash_false h)]
  simp [List.dropWhile_cons]

theorem takeWhile_digits_append {ds : List Char} (rest : List Char)
    (hds : ds.all Char.isDigit = true)
    (hrest : ∀ c, rest.head? = some c → c.isDigit = false) :
    (ds ++ rest).takeWhile Char.isDigit = ds := by
  rw [takeWhile_append_all _ (fun a ha => List.all_eq_true.mp hds a ha)]
  cases rest with
  | nil => simp
  | cons c t =>
    rw [List.takeWhile_cons, if_neg (by simp [hrest c rfl]), List.append_nil]

theorem afterLit_append (lit rest : List Char) : afterLit lit (lit ++ rest) = some rest := by
  induction lit with
  | nil => rfl
  | cons c t ih => simp [afterLit, ih]

/-! ### Lemmas about `splitSlash` -/

theorem splitSlash_ne_nil (cs : List Char) : splitSlash cs ≠ [] := by
  induction cs with
  | nil => simp [splitSlash]
  | cons c r ih =>
    by_cases hc : c = '/'
    · simp [splitSlash, hc]
    · simp only [splitSlash, if_neg hc]
      cases h : splitSlash r with
      | nil => simp
      | cons p ps => simp

theorem splitSlash_no_slash {cs : List Char} (h : hasSlash cs = false) :
    splitSlash cs = [cs] := by
  induction cs with
  | nil => rfl
  | cons c r ih =>
    simp only [hasSlash, Bool.or_eq_false_iff, decide_eq_false_iff_not] at h
    simp only [splitSlash, if_neg h.1, ih h.2]

theorem hasSlash_of_splitSlash_cons_cons {cs : List Char} {p q : List Char}
    {rest : List (List Char)} (h : splitSlash cs = p :: q :: rest) :
    hasSlash cs = true := by
  by_contra hc
  rw [Bool.not_eq_true] at hc
  rw [splitSlash_no_slash hc] at h
  simp at h

theorem mem_splitSlash {cs : List Char} {p : List Char}
    (h : p ∈ splitSlash cs) : hasSlash p = false := by
  induction cs generalizing p with
  | nil =>
    simp only [splitSlash, List.mem_singleton] at h
    simp [h, hasSlash]
  | cons c r ih =>
    by_cases hc : c = '/'
    · simp only [splitSlash, if_pos hc, List.mem_cons] at h
      rcases h with h | h
      · simp [h, hasSlash]
      · exact ih h
    · simp only [splitSlash, if_neg hc] at h
      cases heq : splitSlash r with
      | nil => exact absurd heq (splitSlash_ne_nil r)
      | cons q qs =>
        rw [heq] at h
        simp only [List.mem_cons] at h
        rcases h with h | h
        · subst h
          have hq : hasSlash q = false := ih (heq ▸ List.mem_cons_self q qs)
          simp [hasSlash, hc, hq]
        · exact ih (heq ▸ List.mem_cons_of_mem q h)

/-! ### Lemmas about `parseU32` -/

theorem parseU32_lt {cs : List Char} {n : Nat} (h : parseU32 cs = some n) :
    n < 2 ^ 32 := by
  unfold parseU32 at h
  split at h
  · split at h
    · simp only [Option.some.injEq] at h
      omega
    · exact absurd h (by simp)
  · exact absurd h (by simp)

theorem parseU32_of_digits {cs : List Char} (h1 : cs ≠ [])
    (h2 : cs.all Char.isDigit = true) :
    parseU32 cs = if digitsVal cs < 2 ^ 32 then some (digitsVal cs) else none := by
  have hsp : stripPlus cs = cs := by
    cases cs with
    | nil => rfl
    | cons c r =>
      have hc : c.isDigit = true := List.all_eq_true.mp h2 c (List.mem_cons_self c r)
      have : c ≠ '+' := by
        intro hcc
        rw [hcc] at hc
        exact absurd hc (by decide)
      simp [stripPlus, this]
  unfold parseU32
  rw [hsp, if_pos ⟨h1, h2⟩]

theorem parseU32_hasSlash {cs : List Char} {n : Nat} (h : parseU32 cs = some n) :
    hasSlash cs = false := by
  unfold parseU32 at h
  split at h
  case isTrue hd =>
    rw [hasSlash_eq_false_iff]
    intro hm
    have hmem : '/' ∈ stripPlus cs := by
      cases cs with
      | nil => simp at hm
      | cons c r =>
        rcases List.mem_cons.mp hm with hc | hc
        · subst hc
          simp [stripPlus]
        · by_cases hp : c = '+'
          · simpa [stripPlus, hp] using hc
          · simp [stripPlus, hp, List.mem_cons, hc]
    have := List.all_eq_true.mp hd.2 '/' hmem
    exact absurd this (by decide)
  case isFalse => exact absurd h (by simp)

/-! ### Inversion and computation lemmas for the URL-path matcher -/

theorem matchPullPath_some_inv {cs o r ds : List Char}
    (h : matchPullPath cs = some (o, r, ds)) :
    hasSlash o = false ∧ hasSlash r = false ∧ ds ≠ [] ∧
      ds.all Char.isDigit = true := by
  unfold matchPullPath at h
  rw [Option.bind_eq_some] at h
  obtain ⟨r1, -, h⟩ := h
  split at h
  · exact absurd h (by simp)
  rw [Option.bind_eq_some] at h
  obtain ⟨r2, -, h⟩ := h
  split at h
  · exact absurd h (by simp)
  rw [Option.bind_eq_some] at h
  obtain ⟨r3, -, h⟩ := h
  split at h
  · exact absurd h (by simp)
  next hds =>
  simp only [Option.some.injEq, Prod.mk.injEq] at h
  obtain ⟨ho, hr, hd⟩ := h
  subst ho; subst hr; subst hd
  refine ⟨hasSlash_takeWhile_ne_slash r1, hasSlash_takeWhile_ne_slash r2, hds, ?_⟩
  apply List.all_eq_true.mpr
  intro a ha
  exact List.mem_takeWhile_imp ha

theorem pullPathShape_eq (owner repo ds rest : List Char) :
    ('/' :: owner) ++ ('/' :: repo) ++ "/pull/".data ++ ds ++ rest =
      '/' :: (owner ++ '/' ::
        (repo ++ '/' :: ('p' :: 'u' :: 'l' :: 'l' :: '/' :: (ds ++ rest)))) := by
  have hpd : "/pull/".data = ['/', 'p', 'u', 'l', 'l', '/'] := by decide
  rw [hpd]
  simp

theorem matchPullPath_of_shape {owner repo ds : List Char} (rest : List Char)
    (ho : owner ≠ []) (ho2 : hasSlash owner = false)
    (hr : repo ≠ []) (hr2 : hasSlash repo = false)
    (hd : ds ≠ []) (hd2 : ds.all Char.isDigit = true)
    (hrest : ∀ c, rest.head? = some c → c.isDigit = false) :
    matchPullPath
        (('/' :: owner) ++ ('/' :: repo) ++ "/pull/".data ++ ds ++ rest) =
      some (owner, repo, ds) := by
  rw [pullPathShape_eq]
  have hlit : "/".data = ['/'] := by decide
  have hlit6 : "/pull/".data = ['/', 'p', 'u', 'l', 'l', '/'] := by decide
  unfold matchPullPath
  rw [hlit, hlit6]
  have h1 : afterLit ['/'] ('/' :: (owner ++ '/' ::
      (repo ++ '/' :: ('p' :: 'u' :: 'l' :: 'l' :: '/' :: (ds ++ rest))))) =
      some (owner ++ '/' ::
        (repo ++ '/' :: ('p' :: 'u' :: 'l' :: 'l' :: '/' :: (ds ++ rest)))) := by
    simp [afterLit]
  rw [h1, Option.some_bind, takeWhile_slash_append _ ho2, if_neg ho,
    dropWhile_slash_append _ ho2]
  have h2 : afterLit ['/'] ('/' ::
      (repo ++ '/' :: ('p' :: 'u' :: 'l' :: 'l' :: '/' :: (ds ++ rest)))) =
      some (repo ++ '/' :: ('p' :: 'u' :: 'l' :: 'l' :: '/' :: (ds ++ rest))) := by
    simp [afterLit]
  rw [h2, Option.some_bind, takeWhile_slash_append _ hr2, if_neg hr,
    dropWhile_slash_append _ hr2]
  have h3 : afterLit ['/', 'p', 'u', 'l', 'l', '/']
      ('/' :: ('p' :: 'u' :: 'l' :: 'l' :: '/' :: (ds ++ rest))) =
      some (ds ++ rest) := by
    simp [afterLit]
  rw [h3, Option.some_bind, takeWhile_digits_append rest hd2 hrest, if_neg hd]

theorem parse_github_url_of_shape {owner repo ds : List Char} {u : ParsedUrl}
    (rest : List Char)
    (hpath : u.path.data =
      ('/' :: owner) ++ ('/' :: repo) ++ "/pull/".data ++ ds ++ rest)
    (ho : owner ≠ []) (ho2 : hasSlash owner = false)
    (hr : repo ≠ []) (hr2 : hasSlash repo = false)
    (hd : ds ≠ []) (hd2 : ds.all Char.isDigit = true)
    (hrest : ∀ c, rest.head? = some c → c.isDigit = false) :
    parse_github_url u =
      if digitsVal ds < 2 ^ 32 then
        .ok (⟨String.mk owner, String.mk repo⟩, digitsVal ds)
      else .error .invalidNumber := by
  unfold parse_github_url
  rw [hpath, matchPullPath_of_shape rest ho ho2 hr hr2 hd hd2 hrest]
  dsimp only
  rw [parseU32_of_digits hd hd2]
  by_cases hlt : digitsVal ds < 2 ^ 32
  · simp only [if_pos hlt]
  · simp only [if_neg hlt]

theorem parse_github_url_ok_inv {u : ParsedUrl} {ri : RepoInfo} {n : Nat}
    (h : parse_github_url u = .ok (ri, n)) :
    ∃ o r ds, matchPullPath u.path.data = some (o, r, ds) ∧
      parseU32 ds = some n ∧ ri = ⟨String.mk o, String.mk r⟩ := by
  unfold parse_github_url at h
  split at h
  next o r ds hm =>
    split at h
    next m hp =>
      simp only [Except.ok.injEq, Prod.mk.injEq] at h
      exact ⟨o, r, ds, hm, h.2 ▸ hp, h.1.symm⟩
    next => exact absurd h (by simp)
  next => exact absurd h (by simp)

theorem parse_github_url_none {u : ParsedUrl}
    (h : matchPullPath u.path.data = none) :
    parse_github_url u = .error .invalidPullRequestUrl := by
  unfold parse_github_url
  rw [h]

/-! ### Lemmas for the slash-path attempt and the repo-hint parse -/

theorem slash_attempt_no_slash {cs : List Char} (h : hasSlash cs = false) :
    slash_attempt cs = none := by
  simp [slash_attempt, h]

theorem slash_attempt_two {cs p0 p1 : List Char}
    (hs : splitSlash cs = [p0, p1]) :
    slash_attempt cs = some (.error .missingPrNumber) := by
  have hv := hasSlash_of_splitSlash_cons_cons hs
  simp [slash_attempt, hv, hs]

theorem slash_attempt_four {cs p0 p1 p3 : List Char}
    (hs : splitSlash cs = [p0, p1, "pull".data, p3]) :
    slash_attempt cs = some (match parseU32 p3 with
      | some n => .ok (⟨String.mk p0, String.mk p1⟩, n)
      | none => .error .invalidNumber) := by
  have hv := hasSlash_of_splitSlash_cons_cons hs
  simp [slash_attempt, hv, hs]

theorem slash_attempt_other {cs : List Char} {ps : List (List Char)}
    (hslash : hasSlash cs = true) (hs : splitSlash cs = ps)
    (h2 : ps.length ≠ 2)
    (h4 : ∀ p0 p1 p2 p3, ps = [p0, p1, p2, p3] → p2 ≠ "pull".data) :
    slash_attempt cs = none := by
  unfold slash_attempt
  rw [hs] at *
  simp only [hslash, if_true]
  rcases ps with _ | ⟨a, _ | ⟨b, _ | ⟨c, _ | ⟨d, _ | ⟨e, t⟩⟩⟩⟩⟩
  · rfl
  · rfl
  · exact absurd rfl h2
  · rfl
  · have := h4 a b c d rfl
    simp [this]
  · rfl

theorem slash_attempt_ok_inv {cs : List Char} {ri : RepoInfo} {n : Nat}
    (h : slash_attempt cs = some (.ok (ri, n))) :
    ∃ p0 p1 p3, splitSlash cs = [p0, p1, "pull".data, p3] ∧
      parseU32 p3 = some n ∧ ri = ⟨String.mk p0, String.mk p1⟩ := by
  unfold slash_attempt at h
  split at h
  · split at h
    · exact absurd h (by simp)
    next p0 p1 p2 p3 heq =>
      split at h
      next hpull =>
        subst hpull
        simp only [Option.some.injEq] at h
        split at h
        next m hm =>
          simp only [Except.ok.injEq, Prod.mk.injEq] at h
          exact ⟨p0, p1, p3, heq, h.2 ▸ hm, h.1.symm⟩
        next => exact absurd h (by simp)
      next => exact absurd h (by simp)
    · exact absurd h (by simp)
  · exact absurd h (by simp)

theorem parse_repo_string_two {repo : String} {p0 p1 : List Char}
    (hs : splitSlash repo.data = [p0, p1]) :
    parse_repo_string repo = .ok ⟨String.mk p0, String.mk p1⟩ := by
  simp [parse_repo_string, hs]

theorem parse_repo_string_other {repo : String}
    (h : (splitSlash repo.data).length ≠ 2) :
    parse_repo_string repo = .error .invalidRepoHint := by
  unfold parse_repo_string
  rcases hs : splitSlash repo.data with _ | ⟨a, _ | ⟨b, _ | ⟨c, t⟩⟩⟩
  · rfl
  · rfl
  · rw [hs] at h
    exact absurd rfl h
  · rfl

theorem parse_repo_string_ok_inv {repo : String} {ri : RepoInfo}
    (h : parse_repo_string repo = .ok ri) :
    ∃ p0 p1, splitSlash repo.data = [p0, p1] ∧
      ri = ⟨String.mk p0, String.mk p1⟩ := by
  unfold parse_repo_string at h
  split at h
  next p0 p1 heq =>
    simp only [Except.ok.injEq] at h
    exact ⟨p0, p1, heq, h.symm⟩
  next => exact absurd h (by simp)

/-! ### Lemmas for the ambient remote matcher -/

theorem hasSlash_stripGit {l : List Char} (h : hasSlash l = false) :
    hasSlash (stripGit l) = false := by
  unfold stripGit
  split
  · exact hasSlash_take _ h
  · exact h

theorem stripGit_append_git {repo : List Char} (h : repo ≠ []) :
    stripGit (repo ++ ".git".data) = repo := by
  unfold stripGit
  rw [if_pos]
  · have h4 : (".git".data).length = 4 := by decide
    have : (repo ++ ".git".data).length - 4 = repo.length := by
      rw [List.length_append, h4]
      omega
    rw [this]
    exact List.take_left repo ".git".data
  · constructor
    · rw [List.isSuffixOf_iff_suffix]
      exact List.suffix_append repo ".git".data
    · have h4 : (".git".data).length = 4 := by decide
      have hlen : repo.length ≥ 1 := by
        cases repo with
        | nil => exact absurd rfl h
        | cons a t => simp
      rw [List.length_append, h4]
      omega

theorem matchAfterHost_some_inv {cs o r : List Char}
    (h : matchAfterHost cs = some (o, r)) :
    hasSlash o = false ∧ hasSlash r = false := by
  unfold matchAfterHost at h
  split at h
  · exact absurd h (by simp)
  next sep rest =>
    split at h
    · split at h
      · exact absurd h (by simp)
      · rw [Option.bind_eq_some] at h
        obtain ⟨tail2, -, h⟩ := h
        split at h
        · exact absurd h (by simp)
        · split at h
          · exact absurd h (by simp)
          next hsl =>
            rw [Bool.not_eq_true] at hsl
            simp only [Option.some.injEq, Prod.mk.injEq] at h
            obtain ⟨ho, hr⟩ := h
            subst ho; subst hr
            exact ⟨hasSlash_takeWhile_ne_slash rest, hasSlash_stripGit hsl⟩
    · exact absurd h (by simp)

theorem matchAfterHost_of_shape {sep : Char} {owner repo : List Char}
    (hsep : sep = ':' ∨ sep = '/')
    (ho : owner ≠ []) (ho2 : hasSlash owner = false)
    (hr : repo ≠ []) (hr2 : hasSlash repo = false) :
    matchAfterHost (sep :: (owner ++ '/' :: (repo ++ ".git".data))) =
      some (owner, repo) := by
  unfold matchAfterHost
  dsimp only
  rw [if_pos hsep, takeWhile_slash_append _ ho2, if_neg ho,
    dropWhile_slash_append _ ho2]
  have h1 : afterLit "/".data ('/' :: (repo ++ ".git".data)) =
      some (repo ++ ".git".data) := by
    have : "/".data = ['/'] := by decide
    rw [this]
    simp [afterLit]
  rw [h1, Option.some_bind]
  have h2 : repo ++ ".git".data ≠ [] := by
    cases repo with
    | nil => exact absurd rfl hr
    | cons a t => simp
  rw [if_neg h2]
  have h3 : hasSlash (repo ++ ".git".data) = false := by
    rw [hasSlash_append, hr2]
    decide
  rw [h3, if_neg (by simp), stripGit_append_git hr]

theorem scanGithub_some_inv {cs o r : List Char}
    (h : scanGithub cs = some (o, r)) :
    hasSlash o = false ∧ hasSlash r = false := by
  induction cs with
  | nil => exact absurd h (by simp [scanGithub])
  | cons c rest ih =>
    unfold scanGithub at h
    split at h
    · split at h
      next rr heq =>
        rw [h] at heq
        exact matchAfterHost_some_inv heq
      next => exact ih h
    · exact ih h

theorem detect_repo_from_git_ok_inv {amb : Except String String} {ri : RepoInfo}
    (h : detect_repo_from_git amb = .ok ri) :
    hasSlash ri.owner.data = false ∧ hasSlash ri.name.data = false := by
  unfold detect_repo_from_git at h
  split at h
  · exact absurd h (by simp)
  next url =>
    split at h
    next o r heq =>
      simp only [Except.ok.injEq] at h
      subst h
      exact scanGithub_some_inv heq
    next => exact absurd h (by simp)

/-! ### Reduction lemmas for `parse_input` -/

theorem parse_input_url {urlParse : String → Option ParsedUrl}
    {amb : Except String String} {tok : String} {hint : Option String}
    {u : ParsedUrl} (hu : urlParse tok = some u) :
    parse_input urlParse amb tok hint = parse_github_url u := by
  simp [parse_input, hu]

theorem parse_input_slash {urlParse : String → Option ParsedUrl}
    {amb : Except String String} {tok : String} {hint : Option String}
    {r : Except ParseError (RepoInfo × Nat)} (hu : urlParse tok = none)
    (hs : slash_attempt tok.data = some r) :
    parse_input urlParse amb tok hint = r := by
  simp [parse_input, hu, hs]

theorem parse_input_bare_hint {urlParse : String → Option ParsedUrl}
    {amb : Except String String} {tok hintS : String} {n : Nat}
    (hu : urlParse tok = none) (hn : parseU32 tok.data = some n) :
    parse_input urlParse amb tok (some hintS) =
      (parse_repo_string hintS).map (fun ri => (ri, n)) := by
  have h1 : slash_attempt tok.data = none :=
    slash_attempt_no_slash (parseU32_hasSlash hn)
  simp [parse_input, hu, h1, hn]

theorem parse_input_bare_ambient {urlParse : String → Option ParsedUrl}
    {amb : Except String String} {tok : String} {n : Nat}
    (hu : urlParse tok = none) (hn : parseU32 tok.data = some n) :
    parse_input urlParse amb tok none =
      (detect_repo_from_git amb).map (fun ri => (ri, n)) := by
  have h1 : slash_attempt tok.data = none :=
    slash_attempt_no_slash (parseU32_hasSlash hn)
  simp [parse_input, hu, h1, hn]

theorem parse_input_unrecognized {urlParse : String → Option ParsedUrl}
    {amb : Except String String} {tok : String} {hint : Option String}
    (hu : urlParse tok = none) (hs : slash_attempt tok.data = none)
    (hn : parseU32 tok.data = none) :
    parse_input urlParse amb tok hint = .error (.unrecognizedReferenceFormat tok) := by
  simp [parse_input, hu, hs, hn]

/-! ### Rendering lemmas -/

theorem join_cons_str (s : String) (l : List String) :
    String.join (s :: l) = s ++ String.join l := by
  apply String.ext
  simp [String.join_eq, String.data_append]

theorem render_loop_eq_join (cs : List Comment) :
    render_loop cs = String.join (cs.map render_comment) := by
  induction cs with
  | nil => rfl
  | cons c t ih => rw [render_loop, List.map_cons, join_cons_str, ih]

/-! ### Claim theorems -/

/-- C4: for a non-URI token splitting into exactly four segments with third
segment `pull`, the resolver returns the reference built from the first two
segments and the parsed fourth segment, or fails with the numeric-parse error
`invalidNumber` when the fourth segment does not parse as `u32` — terminally,
for every repo hint and every ambient state. -/
theorem claim4_slash_path (urlParse : String → Option ParsedUrl)
    (amb : Except String String) (tok : String) (hint : Option String)
    (p0 p1 p3 : List Char) (hu : urlParse tok = none)
    (hs : splitSlash tok.data = [p0, p1, "pull".data, p3]) :
    (∀ n, parseU32 p3 = some n →
      parse_input urlParse amb tok hint = .ok (⟨String.mk p0, String.mk p1⟩, n)) ∧
    (parseU32 p3 = none →
      parse_input urlParse amb tok hint = .error .invalidNumber) := by
  have h : parse_input urlParse amb tok hint = (match parseU32 p3 with
      | some m => Except.ok (⟨String.mk p0, String.mk p1⟩, m)
      | none => Except.error ParseError.invalidNumber) :=
    parse_input_slash hu (slash_attempt_four hs)
  constructor
  · intro n hn
    rw [hn] at h
    exact h
  · intro hn
    rw [hn] at h
    exact h

theorem claim4_witness :
    (splitSlash "octocat/Hello-World/pull/42".data =
        ["octocat".data, "Hello-World".data, "pull".data, "42".data] ∧
      parseU32 "42".data = some 42) ∧
    parse_input (fun _ => none) (.error "no git") "octocat/Hello-World/pull/42"
        none = .ok (⟨"octocat", "Hello-World"⟩, 42) :=
  ⟨⟨by decide, by decide⟩,
    (claim4_slash_path _ _ _ _ "octocat".data "Hello-World".data "42".data rfl
      (by decide)).1 42 (by decide)⟩

/-- C5: a non-URI token splitting into exactly two segments fails with
`missingPrNumber`, for every repo hint and every ambient state. -/
theorem claim5_two_segments (urlParse : String → Option ParsedUrl)
    (amb : Except String String) (tok : String) (hint : Option String)
    (p0 p1 : List Char) (hu : urlParse tok = none)
    (hs : splitSlash tok.data = [p0, p1]) :
    parse_input urlParse amb tok hint = .error .missingPrNumber :=
  parse_input_slash hu (slash_attempt_two hs)

theorem claim5_witness :
    splitSlash "octocat/Hello-World".data = ["octocat".data, "Hello-World".data] ∧
    parse_input (fun _ => none) (.error "no git") "octocat/Hello-World"
        (some "x/y") = .error .missingPrNumber :=
  ⟨by decide, claim5_two_segments _ _ _ _ "octocat".data "Hello-World".data rfl
    (by decide)⟩

/-- C6: a bare-number token with a repo hint present resolves through the hint
alone: a two-segment hint gives the combined reference, any other hint fails
with `invalidRepoHint`, and the ambient state is never consulted (the result is
the same for every ambient value). -/
theorem claim6_bare_with_hint (urlParse : String → Option ParsedUrl)
    (amb : Except String String) (tok hintS : String) (n : Nat)
    (hu : urlParse tok = none) (hn : parseU32 tok.data = some n) :
    (∀ p0 p1, splitSlash hintS.data = [p0, p1] →
      parse_input urlParse amb tok (some hintS) =
        .ok (⟨String.mk p0, String.mk p1⟩, n)) ∧
    ((splitSlash hintS.data).length ≠ 2 →
      parse_input urlParse amb tok (some hintS) = .error .invalidRepoHint) ∧
    (∀ amb2, parse_input urlParse amb tok (some hintS) =
      parse_input urlParse amb2 tok (some hintS)) := by
  refine ⟨?_, ?_, ?_⟩
  · intro p0 p1 hs
    rw [parse_input_bare_hint hu hn, parse_repo_string_two hs]
    rfl
  · intro hlen
    rw [parse_input_bare_hint hu hn, parse_repo_string_other hlen]
    rfl
  · intro amb2
    rw [parse_input_bare_hint hu hn, parse_input_bare_hint hu hn]

theorem claim6_witness :
    (parseU32 "7".data = some 7 ∧
      splitSlash "octocat/Hello-World".data =
        ["octocat".data, "Hello-World".data] ∧
      (splitSlash "not-a-repo".data).length ≠ 2) ∧
    parse_input (fun _ => none) (.error "no git") "7" (some "octocat/Hello-World") =
      .ok (⟨"octocat", "Hello-World"⟩, 7) ∧
    parse_input (fun _ => none) (.error "no git") "7" (some "not-a-repo") =
      .error .invalidRepoHint :=
  ⟨⟨by decide, by decide, by decide⟩,
    (claim6_bare_with_hint _ _ _ _ 7 rfl (by decide)).1 "octocat".data
      "Hello-World".data (by decide),
    (claim6_bare_with_hint _ _ _ _ 7 rfl (by decide)).2.1 (by decide)⟩

/-- C8: a non-URI token containing `'/'` whose segment count is neither 2 nor
4-with-third-segment-`pull` fails with `unrecognizedReferenceFormat`, for every
repo hint and every ambient state (so neither the hint nor the ambient remote
can rescue it). -/
theorem claim8_unrecognized (urlParse : String → Option ParsedUrl)
    (amb : Except String String) (tok : String) (hint : Option String)
    (ps : List (List Char)) (hu : urlParse tok = none)
    (hslash : hasSlash tok.data = true) (hs : splitSlash tok.data = ps)
    (h2 : ps.length ≠ 2)
    (h4 : ∀ p0 p1 p2 p3, ps = [p0, p1, p2, p3] → p2 ≠ "pull".data) :
    parse_input urlParse amb tok hint =
      .error (.unrecognizedReferenceFormat tok) := by
  have hsa := slash_attempt_other hslash hs h2 h4
  have hn : parseU32 tok.data = none := by
    cases hp : parseU32 tok.data with
    | none => rfl
    | some m =>
      have := parseU32_hasSlash hp
      rw [hslash] at this
      exact absurd this (by decide)
  exact parse_input_unrecognized hu hsa hn

theorem claim8_witness :
    (hasSlash "a/b/c".data = true ∧ (splitSlash "a/b/c".data).length ≠ 2) ∧
    parse_input (fun _ => none) (.error "no git") "a/b/c" (some "x/y") =
      .error (.unrecognizedReferenceFormat "a/b/c") :=
  ⟨⟨by decide, by decide⟩,
    claim8_unrecognized _ _ _ _ _ rfl (by decide) rfl (by decide)
      (by
        intro p0 p1 p2 p3 hh
        have he : splitSlash "a/b/c".data = [['a'], ['b'], ['c']] := by decide
        rw [he] at hh
        simp at hh)⟩

/-- C9: the rendered markdown is identical whether the include-resolved flag is
set or not, and it is the header followed by the renderings of the comments in
exactly the order of the fetched list (each comment rendered once, none
dropped, duplicated or reordered). -/
theorem claim9_render_flag_and_order (ri : RepoInfo) (n : Nat)
    (pr : PullRequest) (comments : List Comment) (b : Bool) :
    render_output ri n pr comments true = render_output ri n pr comments false ∧
    render_output ri n pr comments b =
      render_header ri n pr ++ String.join (comments.map render_comment) := by
  constructor
  · rfl
  · unfold render_output
    cases b <;> simp [render_loop_eq_join]

/-- C1 (amended): every successfully resolved reference has an owner and a
repository containing no `'/'`, and a number below `2^32`. (The original
claim's non-emptiness and strict positivity do not hold: see the
counterexample.) -/
theorem claim1_reference_invariant (urlParse : String → Option ParsedUrl)
    (amb : Except String String) (tok : String) (hint : Option String)
    (ri : RepoInfo) (n : Nat)
    (h : parse_input urlParse amb tok hint = .ok (ri, n)) :
    hasSlash ri.owner.data = false ∧ hasSlash ri.name.data = false ∧
      n < 2 ^ 32 := by
  cases hu : urlParse tok with
  | some u =>
    rw [parse_input_url hu] at h
    obtain ⟨o, r, ds, hm, hp, hri⟩ := parse_github_url_ok_inv h
    obtain ⟨ho, hr2, -, -⟩ := matchPullPath_some_inv hm
    subst hri
    exact ⟨ho, hr2, parseU32_lt hp⟩
  | none =>
    cases hsa : slash_attempt tok.data with
    | some res =>
      rw [parse_input_slash hu hsa] at h
      rw [h] at hsa
      obtain ⟨p0, p1, p3, hs, hp, hri⟩ := slash_attempt_ok_inv hsa
      subst hri
      refine ⟨?_, ?_, parseU32_lt hp⟩
      · exact mem_splitSlash (p := p0) (by rw [hs]; simp)
      · exact mem_splitSlash (p := p1) (by rw [hs]; simp)
    | none =>
      cases hn : parseU32 tok.data with
      | some m =>
        cases hint with
        | some hintS =>
          rw [parse_input_bare_hint hu hn] at h
          cases hps : parse_repo_string hintS with
          | ok ri2 =>
            rw [hps] at h
            simp only [Except.map, Except.ok.injEq, Prod.mk.injEq] at h
            obtain ⟨hri, hnm⟩ := h
            subst hri
            subst hnm
            obtain ⟨p0, p1, hs2, hri2⟩ := parse_repo_string_ok_inv hps
            subst hri2
            refine ⟨?_, ?_, parseU32_lt hn⟩
            · exact mem_splitSlash (p := p0) (by rw [hs2]; simp)
            · exact mem_splitSlash (p := p1) (by rw [hs2]; simp)
          | error e =>
            rw [hps] at h
            exact absurd h (by simp [Except.map])
        | none =>
          rw [parse_input_bare_ambient hu hn] at h
          cases hd : detect_repo_from_git amb with
          | ok ri2 =>
            rw [hd] at h
            simp only [Except.map, Except.ok.injEq, Prod.mk.injEq] at h
            obtain ⟨hri, hnm⟩ := h
            subst hri
            subst hnm
            obtain ⟨h1, h2⟩ := detect_repo_from_git_ok_inv hd
            exact ⟨h1, h2, parseU32_lt hn⟩
          | error e =>
            rw [hd] at h
            exact absurd h (by simp [Except.map])
      | none =>
        rw [parse_input_unrecognized hu hsa hn] at h
        exact absurd h (by simp)

theorem claim1_witness :
    parse_input (fun _ => none) (.error "no git") "octocat/Hello-World/pull/7"
        none = .ok (⟨"octocat", "Hello-World"⟩, 7) ∧
    (hasSlash "octocat".data = false ∧ hasSlash "Hello-World".data = false ∧
      7 < 2 ^ 32) :=
  ⟨by decide,
    claim1_reference_invariant (fun _ => none) (.error "no git")
      "octocat/Hello-World/pull/7" none ⟨"octocat", "Hello-World"⟩ 7
      (by decide)⟩

/-- C1 counterexample: the claim as stated (owner and repository non-empty and
slash-free, number strictly positive) is false: the slash-path token
`a/b/pull/0` resolves successfully with number 0. -/
theorem claim1_as_stated_false :
    ¬ (∀ (urlParse : String → Option ParsedUrl) (amb : Except String String)
        (tok : String) (hint : Option String) (ri : RepoInfo) (n : Nat),
        parse_input urlParse amb tok hint = .ok (ri, n) →
        ri.owner ≠ "" ∧ hasSlash ri.owner.data = false ∧
        ri.name ≠ "" ∧ hasSlash ri.name.data = false ∧ 0 < n) := by
  intro hcl
  have := hcl (fun _ => none) (.error "no git") "a/b/pull/0" none ⟨"a", "b"⟩ 0
    (by decide)
  exact absurd this.2.2.2.2 (by decide)

/-- C2 (amended): when the token parses as a URI, the result is exactly
`parse_github_url` of it, for every hint and ambient state (no other shape is
attempted); if the path does not match `^/([^/]+)/([^/]+)/pull/(\d+)` as a
prefix, resolution fails with `invalidPullRequestUrl`; if it does match as a
prefix — arbitrary trailing content after the digits is accepted, since the
regex has no end anchor — resolution succeeds with the captured reference
(subject to the `u32` range). -/
theorem claim2_url_shape (urlParse : String → Option ParsedUrl)
    (amb : Except String String) (tok : String) (hint : Option String)
    (u : ParsedUrl) (hu : urlParse tok = some u) :
    parse_input urlParse amb tok hint = parse_github_url u ∧
    (matchPullPath u.path.data = none →
      parse_input urlParse amb tok hint = .error .invalidPullRequestUrl) ∧
    (∀ owner repo ds rest,
      u.path.data = ('/' :: owner) ++ ('/' :: repo) ++ "/pull/".data ++ ds ++ rest →
      owner ≠ [] → hasSlash owner = false → repo ≠ [] → hasSlash repo = false →
      ds ≠ [] → ds.all Char.isDigit = true →
      (∀ c, rest.head? = some c → c.isDigit = false) →
      digitsVal ds < 2 ^ 32 →
      parse_input urlParse amb tok hint =
        .ok (⟨String.mk owner, String.mk repo⟩, digitsVal ds)) := by
  refine ⟨parse_input_url hu, ?_, ?_⟩
  · intro hm
    rw [parse_input_url hu, parse_github_url_none hm]
  · intro owner repo ds rest hpath ho ho2 hr hr2 hd hd2 hrest hlt
    rw [parse_input_url hu,
      parse_github_url_of_shape rest hpath ho ho2 hr hr2 hd hd2 hrest,
      if_pos hlt]

theorem claim2_witness :
    ((fun (_ : String) => some (⟨"/x/y/pull/9"⟩ : ParsedUrl)) "t" =
      some ⟨"/x/y/pull/9"⟩) ∧
    parse_input (fun _ => some ⟨"/x/y/pull/9"⟩) (.error "no git") "t"
        (some "a/b") = parse_github_url ⟨"/x/y/pull/9"⟩ :=
  ⟨rfl, (claim2_url_shape _ _ _ _ _ rfl).1⟩

/-- C2 counterexample: the claim as stated says a URI whose path has trailing
segments after the number — its own example is `/a/b/pull/123/files` — fails
with `invalidPullRequestUrl`; in fact such a path resolves successfully,
because the regex is not anchored at the end. -/
theorem claim2_as_stated_false :
    ¬ (∀ (urlParse : String → Option ParsedUrl) (amb : Except String String)
        (tok : String) (hint : Option String) (u : ParsedUrl),
        urlParse tok = some u → u.path = "/a/b/pull/123/files" →
        parse_input urlParse amb tok hint = .error .invalidPullRequestUrl) := by
  intro hcl
  have := hcl (fun _ => some ⟨"/a/b/pull/123/files"⟩) (.error "no git") "t" none
    ⟨"/a/b/pull/123/files"⟩ rfl rfl
  exact absurd this (by decide)

/-- C3 (amended): a URI whose path is exactly
`/{owner}/{repo}/pull/{digits}` — owner and repo non-empty and slash-free —
resolves to that reference, provided the digit run's value fits in `u32`
(the original claim omits the range condition; see the counterexample). -/
theorem claim3_url_success (urlParse : String → Option ParsedUrl)
    (amb : Except String String) (tok : String) (hint : Option String)
    (u : ParsedUrl) (owner repo ds : List Char)
    (hu : urlParse tok = some u)
    (hpath : u.path.data = ('/' :: owner) ++ ('/' :: repo) ++ "/pull/".data ++ ds)
    (ho : owner ≠ []) (ho2 : hasSlash owner = false)
    (hr : repo ≠ []) (hr2 : hasSlash repo = false)
    (hd : ds ≠ []) (hd2 : ds.all Char.isDigit = true)
    (hlt : digitsVal ds < 2 ^ 32) :
    parse_input urlParse amb tok hint =
      .ok (⟨String.mk owner, String.mk repo⟩, digitsVal ds) := by
  have hpath2 : u.path.data =
      ('/' :: owner) ++ ('/' :: repo) ++ "/pull/".data ++ ds ++ [] := by
    rw [List.append_nil]
    exact hpath
  rw [parse_input_url hu,
    parse_github_url_of_shape [] hpath2 ho ho2 hr hr2 hd hd2
      (by intro c hc; simp at hc),
    if_pos hlt]

theorem claim3_witness :
    ("/rust-lang/rust/pull/12345".data =
        ('/' :: "rust-lang".data) ++ ('/' :: "rust".data) ++ "/pull/".data ++
          "12345".data ∧
      digitsVal "12345".data < 2 ^ 32) ∧
    parse_input (fun _ => some ⟨"/rust-lang/rust/pull/12345"⟩) (.error "no git")
        "https://github.com/rust-lang/rust/pull/12345" none =
      .ok (⟨String.mk "rust-lang".data, String.mk "rust".data⟩,
        digitsVal "12345".data) ∧
    (⟨String.mk "rust-lang".data, String.mk "rust".data⟩ : RepoInfo) =
      ⟨"rust-lang", "rust"⟩ ∧
    digitsVal "12345".data = 12345 :=
  ⟨⟨by decide, by decide⟩,
    claim3_url_success (fun _ => some ⟨"/rust-lang/rust/pull/12345"⟩)
      (.error "no git") "https://github.com/rust-lang/rust/pull/12345" none
      ⟨"/rust-lang/rust/pull/12345"⟩ "rust-lang".data "rust".data "12345".data
      rfl (by decide) (by decide) (by decide) (by decide) (by decide)
      (by decide) (by decide) (by decide),
    by decide, by decide⟩

/-- C3 counterexample: the claim as stated quantifies over every decimal
number `n`; for the path `/a/b/pull/9999999999` (above `u32::MAX`) resolution
fails with the propagated `ParseIntError` instead of returning the
reference. -/
theorem claim3_as_stated_false :
    ¬ (∀ (urlParse : String → Option ParsedUrl) (amb : Except String String)
        (tok : String) (hint : Option String) (u : ParsedUrl)
        (owner repo ds : List Char),
        urlParse tok = some u →
        u.path.data = ('/' :: owner) ++ ('/' :: repo) ++ "/pull/".data ++ ds →
        owner ≠ [] → hasSlash owner = false → repo ≠ [] →
        hasSlash repo = false → ds ≠ [] → ds.all Char.isDigit = true →
        parse_input urlParse amb tok hint =
          .ok (⟨String.mk owner, String.mk repo⟩, digitsVal ds)) := by
  intro hcl
  have := hcl (fun _ => some ⟨"/a/b/pull/9999999999"⟩) (.error "no git") "t"
    none ⟨"/a/b/pull/9999999999"⟩ "a".data "b".data "9999999999".data rfl
    (by decide) (by decide) (by decide) (by decide) (by decide) (by decide)
    (by decide)
  exact absurd this (by decide)

/-- C7: a bare-number token with no hint resolves through the ambient lookup:
the result is exactly the ambient matcher's result paired with the number; the
matcher accepts a trailing `<sep>{owner}/{repo}.git` with `sep` either `':'`
or `'/'` after the `github.com` host, stripping the `.git` suffix; and in
particular the remote URL `git@github.com:octocat/Hello-World.git` yields
`octocat/Hello-World`. -/
theorem claim7_bare_ambient (urlParse : String → Option ParsedUrl)
    (tok : String) (n : Nat) (url : String)
    (hu : urlParse tok = none) (hn : parseU32 tok.data = some n) :
    parse_input urlParse (.ok url) tok none =
      (detect_repo_from_git (.ok url)).map (fun ri => (ri, n)) ∧
    (∀ (sep : Char) (owner repo : List Char), sep = ':' ∨ sep = '/' →
      owner ≠ [] → hasSlash owner = false → repo ≠ [] → hasSlash repo = false →
      matchAfterHost (sep :: (owner ++ '/' :: (repo ++ ".git".data))) =
        some (owner, repo)) ∧
    (url = "git@github.com:octocat/Hello-World.git" →
      parse_input urlParse (.ok url) tok none =
        .ok (⟨"octocat", "Hello-World"⟩, n)) := by
  refine ⟨parse_input_bare_ambient hu hn, ?_, ?_⟩
  · intro sep owner repo hsep ho ho2 hr hr2
    exact matchAfterHost_of_shape hsep ho ho2 hr hr2
  · intro hurl
    subst hurl
    rw [parse_input_bare_ambient hu hn]
    have hd : detect_repo_from_git
        (.ok "git@github.com:octocat/Hello-World.git") =
        .ok ⟨"octocat", "Hello-World"⟩ := by decide
    rw [hd]
    rfl

theorem claim7_witness :
    parseU32 "7".data = some 7 ∧
    parse_input (fun _ => none)
        (.ok "git@github.com:octocat/Hello-World.git") "7" none =
      .ok (⟨"octocat", "Hello-World"⟩, 7) :=
  ⟨by decide, (claim7_bare_ambient _ _ 7 _ rfl (by decide)).2.2 rfl⟩

/-- C10 (amended): the number is parsed as `u32` in all three shapes, so a
digit run whose value exceeds `2^32 - 1` never resolves. In the URL and
slash-path shapes the failure is the numeric-parse error `invalidNumber`; a
bare all-digit token that overflows is not recognized as the bare-number shape
and fails with `unrecognizedReferenceFormat` instead (the original claim's
"fails with a numeric-parse error" does not hold there; see the
counterexample). -/
theorem claim10_number_bounds (urlParse : String → Option ParsedUrl)
    (amb : Except String String) (tok : String) (hint : Option String) :
    (∀ u owner repo ds, urlParse tok = some u →
      u.path.data = ('/' :: owner) ++ ('/' :: repo) ++ "/pull/".data ++ ds →
      owner ≠ [] → hasSlash owner = false → repo ≠ [] → hasSlash repo = false →
      ds ≠ [] → ds.all Char.isDigit = true → ¬ digitsVal ds < 2 ^ 32 →
      parse_input urlParse amb tok hint = .error .invalidNumber) ∧
    (∀ p0 p1 p3, urlParse tok = none →
      splitSlash tok.data = [p0, p1, "pull".data, p3] →
      p3 ≠ [] → p3.all Char.isDigit = true → ¬ digitsVal p3 < 2 ^ 32 →
      parse_input urlParse amb tok hint = .error .invalidNumber) ∧
    (urlParse tok = none → tok.data ≠ [] → tok.data.all Char.isDigit = true →
      ¬ digitsVal tok.data < 2 ^ 32 →
      parse_input urlParse amb tok hint =
        .error (.unrecognizedReferenceFormat tok)) := by
  refine ⟨?_, ?_, ?_⟩
  · intro u owner repo ds hu hpath ho ho2 hr hr2 hd hd2 hnlt
    have hpath2 : u.path.data =
        ('/' :: owner) ++ ('/' :: repo) ++ "/pull/".data ++ ds ++ [] := by
      rw [List.append_nil]
      exact hpath
    rw [parse_input_url hu,
      parse_github_url_of_shape [] hpath2 ho ho2 hr hr2 hd hd2
        (by intro c hc; simp at hc),
      if_neg hnlt]
  · intro p0 p1 p3 hu hs hp3 hdig hnlt
    have hnone : parseU32 p3 = none := by
      rw [parseU32_of_digits hp3 hdig, if_neg hnlt]
    have h : parse_input urlParse amb tok hint = (match parseU32 p3 with
        | some m => Except.ok (⟨String.mk p0, String.mk p1⟩, m)
        | none => Except.error ParseError.invalidNumber) :=
      parse_input_slash hu (slash_attempt_four hs)
    rw [hnone] at h
    exact h
  · intro hu hne hdig hnlt
    have hn : parseU32 tok.data = none := by
      rw [parseU32_of_digits hne hdig, if_neg hnlt]
    have hslash : hasSlash tok.data = false := by
      rw [hasSlash_eq_false_iff]
      intro hm
      have := List.all_eq_true.mp hdig '/' hm
      exact absurd this (by decide)
    exact parse_input_unrecognized hu (slash_attempt_no_slash hslash) hn

theorem claim10_witness :
    (splitSlash "a/b/pull/9999999999".data =
        ["a".data, "b".data, "pull".data, "9999999999".data] ∧
      ¬ digitsVal "9999999999".data < 2 ^ 32) ∧
    parse_input (fun _ => none) (.error "no git") "a/b/pull/9999999999" none =
      .error .invalidNumber :=
  ⟨⟨by decide, by decide⟩,
    (claim10_number_bounds _ _ _ _).2.1 "a".data "b".data "9999999999".data rfl
      (by decide) (by decide) (by decide) (by decide)⟩

/-- C10 counterexample: the claim as stated says every token whose numeric
part exceeds `2^32 - 1` fails with a numeric-parse error; the bare all-digit
token `4294967296` instead fails with `unrecognizedReferenceFormat` (the
`u32` parse failure makes the bare-number shape unrecognized), even with a
valid repo hint present. -/
theorem claim10_as_stated_false :
    ¬ (∀ (urlParse : String → Option ParsedUrl) (amb : Except String String)
        (tok : String) (hint : Option String),
        urlParse tok = none → tok.data ≠ [] →
        tok.data.all Char.isDigit = true → ¬ digitsVal tok.data < 2 ^ 32 →
        parse_input urlParse amb tok hint = .error .invalidNumber) := by
  intro hcl
  have := hcl (fun _ => none) (.error "no git") "4294967296"
    (some "octocat/Hello-World") rfl (by decide) (by decide) (by decide)
  exact absurd this (by decide)
